import Mathlib

/-!
Verification of the scheme-agnostic PKE primitive layer
(`src/pke/include/schemebase/base-pke.h` of openfhe-development).

The header under verification declares the abstract interface `PKEBase`
(KeyGen, Encrypt, Decrypt, EncryptZeroCore, DecryptCore) together with the
value types `EncryptResult` and `DecryptResult`, and gives inline bodies for
the two base-class `Decrypt` overloads (both unconditionally throw a
`config_error`).  The bodies of `KeyGen`, `Encrypt`, `EncryptZeroCore` and
`DecryptCore` live in a translation unit that is not part of the provided
sources, so those operations are modelled from the specification text
(marked `Modelled from the spec:` below).

Ring algebra is an external collaborator in the specification, so the
development is parameterised over an arbitrary commutative ring `R`; the
three randomized samplers (uniform, discrete-Gaussian error,
ternary/sparse secret) are likewise external, so sampled values enter the
operations as explicit arguments, reflecting the specification's
"deterministic-given-randomness" reading of every operation.
-/

/-- `EncryptResult {isValid, numBytesEncrypted}` as declared in the header.
`usint` is modelled as `Nat`. -/
structure EncryptResult where
  isValid : Bool
  numBytesEncrypted : Nat
  deriving DecidableEq, Repr

/-- The default constructor `EncryptResult()` : `isValid(false), numBytesEncrypted(0)`. -/
def encryptResultDefault : EncryptResult :=
  { isValid := false, numBytesEncrypted := 0 }

/-- The length constructor `EncryptResult(size_t len)` : `isValid(true), numBytesEncrypted(len)`. -/
def encryptResultOfLen (len : Nat) : EncryptResult :=
  { isValid := true, numBytesEncrypted := len }

/-- `DecryptResult {isValid, messageLength, scalingFactorInt}` as declared in
the header.  `NativeInteger` is modelled as `Nat`; the multiplicative
identity of `NativeInteger` is `1`. -/
structure DecryptResult where
  isValid : Bool
  messageLength : Nat
  scalingFactorInt : Nat
  deriving DecidableEq, Repr

/-- The default constructor `DecryptResult()` :
`isValid(false), messageLength(0), scalingFactorInt(1)`. -/
def decryptResultDefault : DecryptResult :=
  { isValid := false, messageLength := 0, scalingFactorInt := 1 }

/-- The length constructor `DecryptResult(size_t len)` :
`isValid(true), messageLength(len), scalingFactorInt(1)`. -/
def decryptResultOfLen (len : Nat) : DecryptResult :=
  { isValid := true, messageLength := len, scalingFactorInt := 1 }

/-- The two-argument constructor `DecryptResult(size_t len, NativeInteger scf)` :
`isValid(true), messageLength(len), scalingFactorInt(scf)`. -/
def decryptResultOfLenScf (len scf : Nat) : DecryptResult :=
  { isValid := true, messageLength := len, scalingFactorInt := scf }

/-- Errors thrown by this layer.  `OPENFHE_THROW(config_error, msg)` is
modelled as the `configError` constructor carrying the message. -/
inductive PKEError where
  | configError (msg : String)
  deriving DecidableEq, Repr

/-- `PrivateKey`: wraps exactly one ring element, the secret `s`. -/
structure PrivateKeyM (R : Type) where
  s : R
  deriving DecidableEq, Repr

/-- `PublicKey`: wraps the ordered pair of ring elements `(b, a)`. -/
structure PublicKeyM (R : Type) where
  b : R
  a : R
  deriving DecidableEq, Repr

/-- `KeyPair`: jointly owns one public key and one private key produced by a
single generation call. -/
structure KeyPairM (R : Type) where
  publicKey : PublicKeyM R
  secretKey : PrivateKeyM R
  deriving DecidableEq, Repr

/-- `Ciphertext`: an ordered sequence of ring elements plus opaque scheme
metadata (scale, level) that this layer does not interpret; the metadata is
carried as an uninterpreted tag. -/
structure CiphertextM (R : Type) where
  cv : List R
  tag : Nat
  deriving DecidableEq, Repr

/-- Discriminates the `Except` outcome without binders. -/
def exceptIsOk {e a : Type} : Except e a → Bool
  | Except.ok _ => true
  | Except.error _ => false

/-- The base-class overload
`Decrypt(ConstCiphertext, PrivateKey, NativePoly*)`: its inline body is
`OPENFHE_THROW(config_error, "Decryption to NativePoly is not supported")`.
The caller-owned output buffer is threaded through explicitly to show it is
never written. -/
def DecryptToNativePoly {R : Type} (ciphertext : CiphertextM R)
    (privateKey : PrivateKeyM R) (buf : List R) :
    Except PKEError DecryptResult × List R :=
  (Except.error (PKEError.configError "Decryption to NativePoly is not supported"), buf)

/-- The base-class overload `Decrypt(ConstCiphertext, PrivateKey, Poly*)`:
its inline body is
`OPENFHE_THROW(config_error, "Decryption to Poly is not supported")`. -/
def DecryptToPoly {R : Type} (ciphertext : CiphertextM R)
    (privateKey : PrivateKeyM R) (buf : List R) :
    Except PKEError DecryptResult × List R :=
  (Except.error (PKEError.configError "Decryption to Poly is not supported"), buf)

/-- C9: an `EncryptResult` is valid exactly when it carries a byte count:
the default constructor yields `isValid = false` with
`numBytesEncrypted = 0`, and the length constructor yields
`isValid = true` with `numBytesEncrypted = len`, for every `len`. -/
theorem encryptResult_valid_iff_byte_count :
    encryptResultDefault.isValid = false ∧
    encryptResultDefault.numBytesEncrypted = 0 ∧
    ∀ len : Nat, (encryptResultOfLen len).isValid = true ∧
      (encryptResultOfLen len).numBytesEncrypted = len := by
  exact ⟨rfl, rfl, fun len => ⟨rfl, rfl⟩⟩

/-- C8: every `DecryptResult` constructed without an explicit scaling factor
has `scalingFactorInt` equal to the multiplicative identity `1`, whether
built by the failure (default) constructor or by the success-from-length
constructor. -/
theorem decryptResult_default_scaling_factor_one :
    decryptResultDefault.scalingFactorInt = 1 ∧
    decryptResultDefault.isValid = false ∧
    ∀ len : Nat, (decryptResultOfLen len).scalingFactorInt = 1 ∧
      (decryptResultOfLen len).isValid = true := by
  exact ⟨rfl, rfl, fun len => ⟨rfl, rfl⟩⟩

/-- C6: for every ciphertext, private key and caller-owned buffer, the base
`Decrypt` overloads — the representations the base scheme does not
implement — fail fast with the unsupported-representation `config_error`,
never return an `ok` result (hence never one with `isValid = true`), and
leave the output buffer untouched. -/
theorem decrypt_unsupported_representation_fails {R : Type}
    (ciphertext : CiphertextM R) (privateKey : PrivateKeyM R) (buf : List R) :
    (DecryptToNativePoly ciphertext privateKey buf).1 =
      Except.error (PKEError.configError "Decryption to NativePoly is not supported") ∧
    exceptIsOk (DecryptToNativePoly ciphertext privateKey buf).1 = false ∧
    (DecryptToNativePoly ciphertext privateKey buf).2 = buf ∧
    (DecryptToPoly ciphertext privateKey buf).1 =
      Except.error (PKEError.configError "Decryption to Poly is not supported") ∧
    exceptIsOk (DecryptToPoly ciphertext privateKey buf).1 = false ∧
    (DecryptToPoly ciphertext privateKey buf).2 = buf := by
  exact ⟨rfl, rfl, rfl, rfl, rfl, rfl⟩

/-- C10: the base class implements neither canonical output representation:
both default `Decrypt` overloads (into `NativePoly` and into `Poly`)
unconditionally produce a `config_error` for every ciphertext, private key
and buffer, so no input reaches a successful result through the base
class. -/
theorem base_decrypt_both_overloads_throw {R : Type}
    (ciphertext : CiphertextM R) (privateKey : PrivateKeyM R) (buf : List R) :
    exceptIsOk (DecryptToNativePoly ciphertext privateKey buf).1 = false ∧
    exceptIsOk (DecryptToPoly ciphertext privateKey buf).1 = false ∧
    (DecryptToNativePoly ciphertext privateKey buf).1 =
      Except.error (PKEError.configError "Decryption to NativePoly is not supported") ∧
    (DecryptToPoly ciphertext privateKey buf).1 =
      Except.error (PKEError.configError "Decryption to Poly is not supported") := by
  exact ⟨rfl, rfl, rfl, rfl⟩

/-- Modelled from the spec: the randomness consumed by one `KeyGen` call.
The three samplers are external ring-algebra capabilities; `sTern` is the
outcome of the bounded-weight (ternary/sparse) secret sampler as a function
of the sparseness request, `aUnif` the outcome of the uniform sampler,
`eGauss` the outcome of the discrete-Gaussian error sampler. -/
structure KGRand (R : Type) where
  sTern : Bool → R
  aUnif : R
  eGauss : R

/-- Modelled from the spec: `KeyGen(params, makeSparse) -> KeyPair` (body in
`base-pke.cpp`, not among the provided sources).  Samples secret `s` from
the bounded-weight distribution (sparse when `makeSparse` is set), samples
`a` uniformly, samples error `e` discrete-Gaussian, computes
`b = -(a·s) + e`, and returns `KeyPair{PublicKey(b, a), PrivateKey(s)}`. -/
def KeyGen {R : Type} [CommRing R] (rnd : KGRand R) (makeSparse : Bool) :
    KeyPairM R :=
  let s := rnd.sTern makeSparse
  let a := rnd.aUnif
  let e := rnd.eGauss
  { publicKey := { b := -(a * s) + e, a := a }, secretKey := { s := s } }

/-- Modelled from the spec: the randomness consumed by the private-key
variant of `EncryptZeroCore`: a uniform draw `c1` and a fresh
discrete-Gaussian error `e`. -/
structure ZRandPriv (R : Type) where
  c1 : R
  e : R

/-- Modelled from the spec: the randomness consumed by the public-key
variant of `EncryptZeroCore`: a small blinding element `u` and two
independent fresh errors `e0, e1`. -/
structure ZRandPub (R : Type) where
  u : R
  e0 : R
  e1 : R

/-- Modelled from the spec: `EncryptZeroCore(privateKey, params)` (body not
among the provided sources).  Samples `c1` uniformly, samples fresh error
`e`, computes `c0 = -(c1·s) + e`, returns the vector `(c0, c1)`. -/
def EncryptZeroCorePriv {R : Type} [CommRing R] (privateKey : PrivateKeyM R)
    (rnd : ZRandPriv R) : List R :=
  [-(rnd.c1 * privateKey.s) + rnd.e, rnd.c1]

/-- Modelled from the spec: `EncryptZeroCore(publicKey, params)` (body not
among the provided sources).  Samples a small blinding element `u` and two
fresh errors `e0, e1`; computes `c0 = b·u + e0` and `c1 = a·u + e1` from the
public pair `(b, a)`. -/
def EncryptZeroCorePub {R : Type} [CommRing R] (publicKey : PublicKeyM R)
    (rnd : ZRandPub R) : List R :=
  [publicKey.b * rnd.u + rnd.e0, publicKey.a * rnd.u + rnd.e1]

/-- Adding the already-ring-encoded plaintext into component 0 of the
zero-ciphertext vector: the `(*ba)[0] += plaintext` step of `Encrypt`. -/
def addToC0 {R : Type} [CommRing R] (plaintext : R) : List R → List R
  | [] => []
  | c0 :: rest => (c0 + plaintext) :: rest

/-- Modelled from the spec: `Encrypt(plaintext, privateKey)` (body not among
the provided sources).  Obtains `(c0, c1)` from the private-key variant of
`EncryptZeroCore`, adds the already-ring-encoded plaintext element to `c0`,
and wraps the vector plus opaque metadata as a Ciphertext. -/
def EncryptPriv {R : Type} [CommRing R] (plaintext : R)
    (privateKey : PrivateKeyM R) (rnd : ZRandPriv R) : CiphertextM R :=
  { cv := addToC0 plaintext (EncryptZeroCorePriv privateKey rnd), tag := 0 }

/-- Modelled from the spec: `Encrypt(plaintext, publicKey)` (body not among
the provided sources).  Obtains `(c0, c1)` from the public-key variant of
`EncryptZeroCore`, adds the already-ring-encoded plaintext element to `c0`,
and wraps the vector plus opaque metadata as a Ciphertext. -/
def EncryptPub {R : Type} [CommRing R] (plaintext : R)
    (publicKey : PublicKeyM R) (rnd : ZRandPub R) : CiphertextM R :=
  { cv := addToC0 plaintext (EncryptZeroCorePub publicKey rnd), tag := 0 }

/-- The accumulating loop of `DecryptCore`: starting from `acc = c0` and
`sPow = s`, each step does `acc += sPow * ci; sPow *= s`. -/
def DecryptCoreGo {R : Type} [CommRing R] (s acc sPow : R) : List R → R
  | [] => acc
  | c :: cs => DecryptCoreGo s (acc + sPow * c) (sPow * s) cs

/-- Modelled from the spec: `DecryptCore(cv, privateKey)` (body not among
the provided sources).  Computes `c0 + c1·s + c2·s² + …`, ascending powers
of `s`, one term per ciphertext component, by the accumulating loop. -/
def DecryptCore {R : Type} [CommRing R] (cv : List R)
    (privateKey : PrivateKeyM R) : R :=
  match cv with
  | [] => 0
  | c0 :: rest => DecryptCoreGo privateKey.s c0 privateKey.s rest

/-- Unfolding lemma for the loop: the accumulator collects the polynomial
sum with coefficients weighted by the running power. -/
theorem decryptCoreGo_eq_sum {R : Type} [CommRing R] (s : R) (cs : List R) :
    ∀ acc sPow : R, DecryptCoreGo s acc sPow cs =
      acc + ∑ i ∈ Finset.range cs.length, cs.getD i 0 * (sPow * s ^ i) := by
  induction cs with
  | nil => intro acc sPow; simp [DecryptCoreGo]
  | cons c cs ih =>
      intro acc sPow
      rw [DecryptCoreGo, ih]
      rw [List.length_cons, Finset.sum_range_succ']
      simp only [List.getD_cons_succ, List.getD_cons_zero, pow_zero, mul_one]
      have hbody : ∀ i ∈ Finset.range cs.length,
          cs.getD i 0 * (sPow * s ^ (i + 1)) = cs.getD i 0 * (sPow * s * s ^ i) := by
        intro i _
        ring
      rw [Finset.sum_congr rfl hbody]
      ring

/-- C2: for every ciphertext vector of length at least 2 and private key
with secret `s`, `DecryptCore` returns `c0 + c1·s + c2·s² + …`, one term
per ciphertext component in ascending powers of `s`.  (In this embedding
`DecryptCore` is a pure function of its two arguments, so determinism
across repeated calls holds by construction.) -/
theorem decryptCore_eq_poly_eval {R : Type} [CommRing R] (cv : List R)
    (privateKey : PrivateKeyM R) (h : 2 ≤ cv.length) :
    DecryptCore cv privateKey =
      ∑ i ∈ Finset.range cv.length, cv.getD i 0 * privateKey.s ^ i := by
  cases cv with
  | nil => simp at h
  | cons c0 rest =>
      rw [show DecryptCore (c0 :: rest) privateKey =
            DecryptCoreGo privateKey.s c0 privateKey.s rest from rfl]
      rw [decryptCoreGo_eq_sum, List.length_cons, Finset.sum_range_succ']
      simp only [List.getD_cons_succ, List.getD_cons_zero, pow_zero, mul_one]
      have hbody : ∀ i ∈ Finset.range rest.length,
          rest.getD i 0 * privateKey.s ^ (i + 1) =
            rest.getD i 0 * (privateKey.s * privateKey.s ^ i) := by
        intro i _
        ring
      rw [Finset.sum_congr rfl hbody]
      ring

/-- Witness for C2: a concrete length-3 ciphertext vector over `ℤ` with
secret `5`. -/
theorem decryptCore_eq_poly_eval_witness :
    2 ≤ ([1, 2, 3] : List ℤ).length ∧
    DecryptCore ([1, 2, 3] : List ℤ) ⟨5⟩ =
      ∑ i ∈ Finset.range ([1, 2, 3] : List ℤ).length,
        ([1, 2, 3] : List ℤ).getD i 0 * (5 : ℤ) ^ i :=
  ⟨by decide, decryptCore_eq_poly_eval ([1, 2, 3] : List ℤ) ⟨5⟩ (by decide)⟩

/-- C4: for every randomness source and `makeSparse` flag, `KeyGen` returns
`KeyPair{PublicKey(b, a), PrivateKey(s)}` where `s` is the bounded-weight
secret sample, `a` the uniform sample, and `b = -(a·s) + e` for the
discrete-Gaussian error sample `e`; equivalently `b + a·s = e`.  `KeyGen`
is total: it has no failure path. -/
theorem keyGen_structure {R : Type} [CommRing R] (rnd : KGRand R)
    (makeSparse : Bool) :
    (KeyGen rnd makeSparse).secretKey.s = rnd.sTern makeSparse ∧
    (KeyGen rnd makeSparse).publicKey.a = rnd.aUnif ∧
    (KeyGen rnd makeSparse).publicKey.b =
      -(rnd.aUnif * rnd.sTern makeSparse) + rnd.eGauss ∧
    (KeyGen rnd makeSparse).publicKey.b +
      (KeyGen rnd makeSparse).publicKey.a * (KeyGen rnd makeSparse).secretKey.s =
      rnd.eGauss := by
  refine ⟨rfl, rfl, rfl, ?_⟩
  show -(rnd.aUnif * rnd.sTern makeSparse) + rnd.eGauss +
      rnd.aUnif * rnd.sTern makeSparse = rnd.eGauss
  ring

/-- C5: both `Encrypt` overloads obtain `(c0, c1)` from the matching
`EncryptZeroCore` variant, add the already-ring-encoded plaintext element
to `c0`, and wrap `(c0 + m, c1)` as the ciphertext vector — for every
input, so the full encryption path is always taken and never degrades to
an encode-only embedding. -/
theorem encrypt_adds_plaintext_to_zero_core {R : Type} [CommRing R]
    (plaintext : R) (privateKey : PrivateKeyM R) (publicKey : PublicKeyM R)
    (rp : ZRandPriv R) (rq : ZRandPub R) :
    (∃ c0 c1, EncryptZeroCorePriv privateKey rp = [c0, c1] ∧
      (EncryptPriv plaintext privateKey rp).cv = [c0 + plaintext, c1]) ∧
    (∃ c0 c1, EncryptZeroCorePub publicKey rq = [c0, c1] ∧
      (EncryptPub plaintext publicKey rq).cv = [c0 + plaintext, c1]) := by
  exact ⟨⟨_, _, rfl, rfl⟩, ⟨_, _, rfl, rfl⟩⟩

/-- Modelled from the spec: scheme-specific plaintext decoding is an
external collaborator.  A decode model fixes a ring encoding of messages, a
decoder, and the scheme's noise bound; its contract is that decoding
recovers any message whose accompanying noise is within the bound, and that
the zero message encodes to the ring zero. -/
structure DecodeModel (R M : Type) [CommRing R] [Zero M] where
  encode : M → R
  decode : R → M
  noiseOK : R → Prop
  decode_encode : ∀ (m : M) (e : R), noiseOK e → decode (encode m + e) = m
  encode_zero : encode 0 = 0

/-- A concrete decode model over `ℤ`: messages are scaled by `3`, noise of
absolute value at most `1` is tolerated, decoding rounds to the nearest
multiple of `3`. -/
def scaleModel : DecodeModel ℤ ℤ where
  encode := fun m => 3 * m
  decode := fun x => (x + 1) / 3
  noiseOK := fun e => e = -1 ∨ e = 0 ∨ e = 1
  decode_encode := by
    intro m e he
    dsimp only
    rcases he with h | h | h <;> subst h <;> omega
  encode_zero := by norm_num

/-- C1: round-trip correctness.  For every decode model, key-generation
randomness, flag and message, encrypting the encoded message under the
private key (resp. the matching public key) and applying `DecryptCore` with
the same generation's secret key decodes back to the message, whenever the
residual noise (the fresh error `e` for the symmetric path; the combination
`e_pk·u + e0 + e1·s` for the asymmetric path) is within the scheme's noise
bound. -/
theorem roundtrip_correctness {R M : Type} [CommRing R] [Zero M]
    (D : DecodeModel R M) (rnd : KGRand R) (makeSparse : Bool) (m : M)
    (rp : ZRandPriv R) (rq : ZRandPub R)
    (h1 : D.noiseOK rp.e)
    (h2 : D.noiseOK (rnd.eGauss * rq.u + rq.e0 + rq.e1 * rnd.sTern makeSparse)) :
    D.decode (DecryptCore
        (EncryptPriv (D.encode m) (KeyGen rnd makeSparse).secretKey rp).cv
        (KeyGen rnd makeSparse).secretKey) = m ∧
    D.decode (DecryptCore
        (EncryptPub (D.encode m) (KeyGen rnd makeSparse).publicKey rq).cv
        (KeyGen rnd makeSparse).secretKey) = m := by
  constructor
  · have hx : DecryptCore
        (EncryptPriv (D.encode m) (KeyGen rnd makeSparse).secretKey rp).cv
        (KeyGen rnd makeSparse).secretKey = D.encode m + rp.e := by
      simp [EncryptPriv, EncryptZeroCorePriv, addToC0, DecryptCore,
        DecryptCoreGo, KeyGen]
      ring
    rw [hx]
    exact D.decode_encode m rp.e h1
  · have hx : DecryptCore
        (EncryptPub (D.encode m) (KeyGen rnd makeSparse).publicKey rq).cv
        (KeyGen rnd makeSparse).secretKey =
        D.encode m + (rnd.eGauss * rq.u + rq.e0 + rq.e1 * rnd.sTern makeSparse) := by
      simp [EncryptPub, EncryptZeroCorePub, addToC0, DecryptCore,
        DecryptCoreGo, KeyGen]
      ring
    rw [hx]
    exact D.decode_encode m _ h2

/-- Witness for C1: concrete integers — secret `2`, uniform draw `5`,
key-generation error `1`, message `4`, symmetric randomness `(c1, e) = (3, -1)`,
asymmetric randomness `(u, e0, e1) = (1, 1, -1)`. -/
theorem roundtrip_correctness_witness :
    scaleModel.noiseOK (ZRandPriv.e (⟨3, -1⟩ : ZRandPriv ℤ)) ∧
    scaleModel.noiseOK
      ((⟨fun _ => 2, 5, 1⟩ : KGRand ℤ).eGauss * (⟨1, 1, -1⟩ : ZRandPub ℤ).u +
        (⟨1, 1, -1⟩ : ZRandPub ℤ).e0 +
        (⟨1, 1, -1⟩ : ZRandPub ℤ).e1 * (⟨fun _ => 2, 5, 1⟩ : KGRand ℤ).sTern true) ∧
    (scaleModel.decode (DecryptCore
        (EncryptPriv (scaleModel.encode 4)
          (KeyGen (⟨fun _ => 2, 5, 1⟩ : KGRand ℤ) true).secretKey
          (⟨3, -1⟩ : ZRandPriv ℤ)).cv
        (KeyGen (⟨fun _ => 2, 5, 1⟩ : KGRand ℤ) true).secretKey) = 4 ∧
     scaleModel.decode (DecryptCore
        (EncryptPub (scaleModel.encode 4)
          (KeyGen (⟨fun _ => 2, 5, 1⟩ : KGRand ℤ) true).publicKey
          (⟨1, 1, -1⟩ : ZRandPub ℤ)).cv
        (KeyGen (⟨fun _ => 2, 5, 1⟩ : KGRand ℤ) true).secretKey) = 4) :=
  ⟨Or.inl rfl, Or.inr (Or.inl (by decide)),
    roundtrip_correctness scaleModel (⟨fun _ => 2, 5, 1⟩ : KGRand ℤ) true 4
      (⟨3, -1⟩ : ZRandPriv ℤ) (⟨1, 1, -1⟩ : ZRandPub ℤ) (Or.inl rfl)
      (Or.inr (Or.inl (by decide)))⟩

/-- C3: zero-ciphertext property.  For a key pair from a single `KeyGen`
call, the private-key variant of `EncryptZeroCore` returns `(c0, c1)` with
`c1` the uniform draw and `c0 = -(c1·s) + e` for the fresh error `e`; and
for both variants, applying `DecryptCore` with the same generation's secret
key yields a ring element that decodes to the zero message whenever the
residual noise is within the noise bound. -/
theorem zero_ciphertext_decodes_to_zero {R M : Type} [CommRing R] [Zero M]
    (D : DecodeModel R M) (rnd : KGRand R) (makeSparse : Bool)
    (rp : ZRandPriv R) (rq : ZRandPub R)
    (h1 : D.noiseOK rp.e)
    (h2 : D.noiseOK (rnd.eGauss * rq.u + rq.e0 + rq.e1 * rnd.sTern makeSparse)) :
    EncryptZeroCorePriv (KeyGen rnd makeSparse).secretKey rp =
      [-(rp.c1 * (KeyGen rnd makeSparse).secretKey.s) + rp.e, rp.c1] ∧
    D.decode (DecryptCore
        (EncryptZeroCorePriv (KeyGen rnd makeSparse).secretKey rp)
        (KeyGen rnd makeSparse).secretKey) = 0 ∧
    D.decode (DecryptCore
        (EncryptZeroCorePub (KeyGen rnd makeSparse).publicKey rq)
        (KeyGen rnd makeSparse).secretKey) = 0 := by
  refine ⟨rfl, ?_, ?_⟩
  · have hx : DecryptCore
        (EncryptZeroCorePriv (KeyGen rnd makeSparse).secretKey rp)
        (KeyGen rnd makeSparse).secretKey = D.encode 0 + rp.e := by
      rw [D.encode_zero]
      simp [EncryptZeroCorePriv, DecryptCore, DecryptCoreGo, KeyGen]
      ring
    rw [hx]
    exact D.decode_encode 0 rp.e h1
  · have hx : DecryptCore
        (EncryptZeroCorePub (KeyGen rnd makeSparse).publicKey rq)
        (KeyGen rnd makeSparse).secretKey =
        D.encode 0 + (rnd.eGauss * rq.u + rq.e0 + rq.e1 * rnd.sTern makeSparse) := by
      rw [D.encode_zero]
      simp [EncryptZeroCorePub, DecryptCore, DecryptCoreGo, KeyGen]
      ring
    rw [hx]
    exact D.decode_encode 0 _ h2

/-- Witness for C3: concrete integers — secret `2`, uniform draw `7`,
key-generation error `-1`, symmetric randomness `(c1, e) = (4, 1)`,
asymmetric randomness `(u, e0, e1) = (-1, 1, 1)`. -/
theorem zero_ciphertext_decodes_to_zero_witness :
    scaleModel.noiseOK (ZRandPriv.e (⟨4, 1⟩ : ZRandPriv ℤ)) ∧
    scaleModel.noiseOK
      ((⟨fun _ => 2, 7, -1⟩ : KGRand ℤ).eGauss * (⟨1, -1, 1⟩ : ZRandPub ℤ).u +
        (⟨1, -1, 1⟩ : ZRandPub ℤ).e0 +
        (⟨1, -1, 1⟩ : ZRandPub ℤ).e1 * (⟨fun _ => 2, 7, -1⟩ : KGRand ℤ).sTern false) ∧
    (EncryptZeroCorePriv (KeyGen (⟨fun _ => 2, 7, -1⟩ : KGRand ℤ) false).secretKey
        (⟨4, 1⟩ : ZRandPriv ℤ) =
      [-((4 : ℤ) * (KeyGen (⟨fun _ => 2, 7, -1⟩ : KGRand ℤ) false).secretKey.s) + 1, 4] ∧
     scaleModel.decode (DecryptCore
        (EncryptZeroCorePriv (KeyGen (⟨fun _ => 2, 7, -1⟩ : KGRand ℤ) false).secretKey
          (⟨4, 1⟩ : ZRandPriv ℤ))
        (KeyGen (⟨fun _ => 2, 7, -1⟩ : KGRand ℤ) false).secretKey) = 0 ∧
     scaleModel.decode (DecryptCore
        (EncryptZeroCorePub (KeyGen (⟨fun _ => 2, 7, -1⟩ : KGRand ℤ) false).publicKey
          (⟨1, -1, 1⟩ : ZRandPub ℤ))
        (KeyGen (⟨fun _ => 2, 7, -1⟩ : KGRand ℤ) false).secretKey) = 0) :=
  ⟨Or.inr (Or.inr rfl), Or.inr (Or.inl (by decide)),
    zero_ciphertext_decodes_to_zero scaleModel (⟨fun _ => 2, 7, -1⟩ : KGRand ℤ) false
      (⟨4, 1⟩ : ZRandPriv ℤ) (⟨1, -1, 1⟩ : ZRandPub ℤ) (Or.inr (Or.inr rfl))
      (Or.inr (Or.inl (by decide)))⟩

/-- Modelled from the spec: the fixed sparsity threshold relative to the
ring degree used by the sparse secret sampler. -/
def sparseBound (n : Nat) : Nat := n / 2

/-- Maps one raw random integer to a ternary coefficient in `{-1, 0, 1}`. -/
def ternCoeff (x : ℤ) : ℤ :=
  if x % 3 = 1 then 1 else if x % 3 = 2 then -1 else 0

/-- Modelled from the spec: the bounded-weight (ternary/sparse) secret
sampler over a ring of degree `n`, realised on coefficient vectors.  When
`makeSparse` is set, coefficients at positions at or beyond the sparsity
threshold are forced to zero, so the secret has a constrained number of
nonzero coefficients; otherwise every coefficient is a ternary draw. -/
def sampleTernary (n : Nat) (makeSparse : Bool) (raw : Fin n → ℤ) :
    Fin n → ℤ :=
  fun i => if makeSparse ∧ sparseBound n ≤ (i : Nat) then 0
           else ternCoeff (raw i)

/-- Number of nonzero coefficients of a degree-`n` coefficient vector. -/
def nonzeroCount (n : Nat) (v : Fin n → ℤ) : Nat :=
  (Finset.univ.filter fun i => v i ≠ 0).card

/-- `KeyGen` instantiated at the concrete coefficient-vector ring, with the
secret drawn by the ternary/sparse sampler from raw entropy `raw` and the
uniform and error draws `a`, `e`. -/
def keyGenConcrete (n : Nat) (raw a e : Fin n → ℤ) (makeSparse : Bool) :
    KeyPairM (Fin n → ℤ) :=
  KeyGen ⟨fun ms => sampleTernary n ms raw, a, e⟩ makeSparse

/-- C7: for every positive ring degree and raw entropy,
`KeyGen(…, makeSparse = true)` yields a secret whose count of nonzero
coefficients is at most the fixed threshold `sparseBound n`, itself below
the ring degree; `makeSparse = false` imposes no such bound — there is raw
entropy driving the nonzero count strictly above the threshold. -/
theorem keyGen_sparse_secret_bound (n : Nat) (raw a e : Fin n → ℤ)
    (h : 1 ≤ n) :
    nonzeroCount n (keyGenConcrete n raw a e true).secretKey.s ≤ sparseBound n ∧
    sparseBound n < n ∧
    ∃ raw2 : Fin n → ℤ,
      sparseBound n < nonzeroCount n (keyGenConcrete n raw2 a e false).secretKey.s := by
  have hlt : sparseBound n < n := Nat.div_lt_self (by omega) (by omega)
  refine ⟨?_, hlt, ?_⟩
  · have hs : (keyGenConcrete n raw a e true).secretKey.s =
        sampleTernary n true raw := rfl
    rw [nonzeroCount, hs]
    have hcard := Finset.card_le_card_of_injOn (fun i : Fin n => (i : Nat))
      (s := Finset.univ.filter fun i => sampleTernary n true raw i ≠ 0)
      (t := Finset.range (sparseBound n))
      (by
        intro i hi
        dsimp only
        rw [Finset.mem_filter] at hi
        rw [Finset.mem_range]
        by_contra hge
        apply hi.2
        rw [sampleTernary]
        rw [if_pos ⟨rfl, by omega⟩])
      (by
        intro i _ j _ hij
        exact Fin.val_injective hij)
    rwa [Finset.card_range] at hcard
  · refine ⟨fun _ => 1, ?_⟩
    have hs : (keyGenConcrete n (fun _ => 1) a e false).secretKey.s =
        sampleTernary n false (fun _ => 1) := rfl
    have hv : ∀ i : Fin n, sampleTernary n false (fun _ => (1 : ℤ)) i = 1 := by
      intro i
      rw [sampleTernary]
      rw [if_neg (by simp), ternCoeff]
      norm_num
    have hcount : nonzeroCount n (sampleTernary n false fun _ => (1 : ℤ)) = n := by
      rw [nonzeroCount]
      have hfilter : (Finset.univ.filter
          fun i => sampleTernary n false (fun _ => (1 : ℤ)) i ≠ 0) =
          Finset.univ := by
        apply Finset.filter_true_of_mem
        intro i _
        rw [hv i]
        norm_num
      rw [hfilter, Finset.card_univ, Fintype.card_fin]
    rw [hs, hcount]
    exact hlt

/-- Witness for C7: ring degree `4` with constant raw entropy. -/
theorem keyGen_sparse_secret_bound_witness :
    1 ≤ 4 ∧
    (nonzeroCount 4 (keyGenConcrete 4 (fun _ => 1) (fun _ => 1) (fun _ => 1)
        true).secretKey.s ≤ sparseBound 4 ∧
     sparseBound 4 < 4 ∧
     ∃ raw2 : Fin 4 → ℤ,
       sparseBound 4 < nonzeroCount 4 (keyGenConcrete 4 raw2 (fun _ => 1)
         (fun _ => 1) false).secretKey.s) :=
  ⟨by decide,
    keyGen_sparse_secret_bound 4 (fun _ => 1) (fun _ => 1) (fun _ => 1) (by decide)⟩
